import Mathlib

/-!
Shallow embedding of the MD5 implementation in `MD5/MD5.cpp` (helpers from
`io.cpp`).  Machine `uint32_t` / `uint64_t` values are modelled as `Nat`
with explicit reduction modulo `2 ^ 32` / `2 ^ 64` where the C++ type would
wrap; byte vectors are `List Nat`; fallible array indexing is modelled with
`Option`-returning access so that out-of-bounds reads are visible as `none`.
-/

namespace MD5

/-- Addition of two 32-bit words with wraparound, as C++ `uint32_t` addition. -/
def add32 (a b : Nat) : Nat := (a + b) % 2 ^ 32

/-- Bitwise complement of a 32-bit word, as C++ `~x` on `uint32_t`. -/
def compl32 (x : Nat) : Nat := x ^^^ 0xffffffff

/-- Constant table `K` from `MD5.cpp`: additive round constants. -/
def K : List Nat := [
  0xd76aa478, 0xe8c7b756, 0x242070db, 0xc1bdceee,
  0xf57c0faf, 0x4787c62a, 0xa8304613, 0xfd469501,
  0x698098d8, 0x8b44f7af, 0xffff5bb1, 0x895cd7be,
  0x6b901122, 0xfd987193, 0xa679438e, 0x49b40821,
  0xf61e2562, 0xc040b340, 0x265e5a51, 0xe9b6c7aa,
  0xd62f105d, 0x02441453, 0xd8a1e681, 0xe7d3fbc8,
  0x21e1cde6, 0xc33707d6, 0xf4d50d87, 0x455a14ed,
  0xa9e3e905, 0xfcefa3f8, 0x676f02d9, 0x8d2a4c8a,
  0xfffa3942, 0x8771f681, 0x6d9d6122, 0xfde5380c,
  0xa4beea44, 0x4bdecfa9, 0xf6bb4b60, 0xbebfbc70,
  0x289b7ec6, 0xeaa127fa, 0xd4ef3085, 0x04881d05,
  0xd9d4d039, 0xe6db99e5, 0x1fa27cf8, 0xc4ac5665,
  0xf4292244, 0x432aff97, 0xab9423a7, 0xfc93a039,
  0x655b59c3, 0x8f0ccc92, 0xffeff47d, 0x85845dd1,
  0x6fa87e4f, 0xfe2ce6e0, 0xa3014314, 0x4e0811a1,
  0xf7537e82, 0xbd3af235, 0x2ad7d2bb, 0xeb86d391]

/-- Constant table `S` from `MD5.cpp`: per-round left-rotation amounts. -/
def S : List Nat := [
  7, 12, 17, 22, 7, 12, 17, 22, 7, 12, 17, 22, 7, 12, 17, 22,
  5,  9, 14, 20, 5,  9, 14, 20, 5,  9, 14, 20, 5,  9, 14, 20,
  4, 11, 16, 23, 4, 11, 16, 23, 4, 11, 16, 23, 4, 11, 16, 23,
  6, 10, 15, 21, 6, 10, 15, 21, 6, 10, 15, 21, 6, 10, 15, 21]

/-- Embedding of `md5_pad_message`: record the bit length as a `uint64_t`
(wrapping modulo `2 ^ 64`), append `0x80`, append zero bytes until the
length plus 8 is a multiple of 64 (the closed count of iterations of the
`while` loop), then append the bit length as 8 little-endian bytes. -/
def md5_pad_message (message : List Nat) : List Nat :=
  let originalLength := message.length * 8 % 2 ^ 64
  let m1 := message ++ [0x80]
  let m2 := m1 ++ List.replicate ((64 - (m1.length + 8) % 64) % 64) 0
  m2 ++ (List.range 8).map (fun i => originalLength >>> (i * 8) &&& 0xff)

/-- One word of a chunk in `md5_get_chunk`: the four bytes at `base`,
`base + 1`, `base + 2`, `base + 3` combined little-endian, with every
byte access `Option`-guarded (an out-of-bounds read yields `none`). -/
def word_at? (message : List Nat) (base : Nat) : Option Nat :=
  match message[base]?, message[base + 1]?, message[base + 2]?,
      message[base + 3]? with
  | some b0, some b1, some b2, some b3 =>
      some (b0 ||| b1 <<< 8 ||| b2 <<< 16 ||| b3 <<< 24)
  | _, _, _, _ => none

/-- The `j`-loop of `md5_get_chunk`, building one word per index in `js`
(the word for index `j` reads bytes `i + j * 4 .. i + j * 4 + 3`). -/
def words? (msg : List Nat) (i : Nat) : List Nat → Option (List Nat)
  | [] => some []
  | j :: js =>
    match word_at? msg (i + j * 4), words? msg i js with
    | some w, some ws => some (w :: ws)
    | _, _ => none

/-- Embedding of `md5_get_chunk`: the `assert(i >= 0 && i < size)` guard
(`i : Nat` is always nonnegative) followed by the 16-word extraction; a
failed assertion or any out-of-bounds byte read yields `none`. -/
def md5_get_chunk? (message : List Nat) (i : Nat) : Option (List Nat) :=
  if i < message.length then words? message i (List.range 16) else none

/-- Embedding of `md5_rotate`: `(x << n) | (x >> (32 - n))` on `uint32_t`,
the left shift wrapping modulo `2 ^ 32`. -/
def md5_rotate (x : Nat) (n : Nat) : Nat :=
  (x <<< n) % 2 ^ 32 ||| x >>> (32 - n)

/-- One iteration of the 64-round loop of `md5_process_chunk`, translated
branch by branch from the source: select the input word and the mixing
value by the range of `i`, then rotate the state quadruple. -/
def md5_round (chunk : List Nat) (st : Nat × Nat × Nat × Nat) (i : Nat) :
    Nat × Nat × Nat × Nat :=
  match st with
  | (A, B, C, D) =>
    let input_word :=
      if i < 16 then chunk.getD i 0
      else if i < 32 then chunk.getD ((5 * i + 1) % 16) 0
      else if i < 48 then chunk.getD ((3 * i + 5) % 16) 0
      else chunk.getD (7 * i % 16) 0
    let fghi :=
      if i < 16 then B &&& C ||| compl32 B &&& D
      else if i < 32 then D &&& B ||| compl32 D &&& C
      else if i < 48 then B ^^^ C ^^^ D
      else C ^^^ (B ||| compl32 D)
    (D,
     add32 (md5_rotate (add32 (add32 (add32 fghi A) input_word) (K.getD i 0))
       (S.getD i 0)) B,
     B, C)

/-- Embedding of `md5_process_chunk`: 64 rounds of `md5_round` starting
from `(A, B, C, D)`, returned as the four-element vector `{A, B, C, D}`. -/
def md5_process_chunk (chunk : List Nat) (A B C D : Nat) : List Nat :=
  match (List.range 64).foldl (md5_round chunk) (A, B, C, D) with
  | (a, b, c, d) => [a, b, c, d]

/-- One iteration of the block loop in `main`: extract the chunk at byte
offset `b * 64`, run `md5_process_chunk` on the current state, and add the
four returned words into the state with `uint32_t` wraparound. -/
def md5_step? (padded : List Nat) (st : Nat × Nat × Nat × Nat) (b : Nat) :
    Option (Nat × Nat × Nat × Nat) :=
  match st with
  | (A, B, C, D) =>
    (md5_get_chunk? padded (b * 64)).map (fun chunk =>
      let r := md5_process_chunk chunk A B C D
      (add32 A (r.getD 0 0), add32 B (r.getD 1 0),
       add32 C (r.getD 2 0), add32 D (r.getD 3 0)))

/-- The block loop of `main`: starting from the hard-coded initial state,
fold `md5_step?` over the block indices `0, 1, ...` (byte offsets
`0, 64, ...` below the padded length). -/
def md5_blocks? (padded : List Nat) : Option (Nat × Nat × Nat × Nat) :=
  (List.range (padded.length / 64)).foldlM (md5_step? padded)
    (0x67452301, 0xefcdab89, 0x98badcfe, 0x10325476)

/-- Serialization of one 32-bit state word into 4 little-endian bytes, as
in the final loop of `main`. -/
def word_to_bytes (w : Nat) : List Nat :=
  (List.range 4).map (fun i => w >>> (i * 8) &&& 0xff)

/-- The digest pipeline of `main` on an already-acquired message: pad,
fold the block loop, and serialize the final state as the 16 bytes
`A, B, C, D`, each little-endian. -/
def md5_digest? (message : List Nat) : Option (List Nat) :=
  (md5_blocks? (md5_pad_message message)).map (fun st =>
    word_to_bytes st.1 ++ word_to_bytes st.2.1 ++ word_to_bytes st.2.2.1 ++
      word_to_bytes st.2.2.2)

/-- Lowercase hex digit for a value below 16, as produced by the
`std::hex` stream in `to_hex_string`. -/
def hexDigit (n : Nat) : Char := "0123456789abcdef".toList.getD n '0'

/-- Embedding of `to_hex_string` from `io.cpp`: each byte becomes two
lowercase hex digits, high nibble first. -/
def to_hex_string (bytes : List Nat) : String :=
  String.mk ((bytes.map (fun b => [hexDigit (b / 16), hexDigit (b % 16)])).flatten)

/-- Bytes of a command-line message string, as in `md5_get_message`
(each `char` of the argument becomes one byte). -/
def strToBytes (s : String) : List Nat := s.toList.map Char.toNat

/-- Little-endian 32-bit word read with total (default-`0`) indexing,
used to state what a successfully extracted block word equals. -/
def wordAt (msg : List Nat) (base : Nat) : Nat :=
  msg.getD base 0 ||| msg.getD (base + 1) 0 <<< 8 |||
    msg.getD (base + 2) 0 <<< 16 ||| msg.getD (base + 3) 0 <<< 24

/-- Modelled from the spec contract of `block_at`: word `j` is built from
bytes `padded[offset + 4*j .. offset + 4*j + 3]`, combined little-endian. -/
def block_at (padded : List Nat) (offset : Nat) : List Nat :=
  (List.range 16).map (fun j => wordAt padded (offset + 4 * j))

/-- Modelled from the spec round table: dispatch on the sixteen-round
range containing `i` to pick the input-word index and the nonlinear
mixing value, then set `(A,B,C,D)` to
`(D, rotate_left(f + A + word + K[i], S[i]) + B, B, C)` modulo `2 ^ 32`. -/
def md5_round_spec (chunk : List Nat) (st : Nat × Nat × Nat × Nat) (i : Nat) :
    Nat × Nat × Nat × Nat :=
  match st with
  | (A, B, C, D) =>
    let g :=
      if 16 ≤ i ∧ i ≤ 31 then (5 * i + 1) % 16
      else if 32 ≤ i ∧ i ≤ 47 then (3 * i + 5) % 16
      else if 48 ≤ i ∧ i ≤ 63 then 7 * i % 16
      else i
    let f :=
      if 16 ≤ i ∧ i ≤ 31 then D &&& B ||| compl32 D &&& C
      else if 32 ≤ i ∧ i ≤ 47 then B ^^^ C ^^^ D
      else if 48 ≤ i ∧ i ≤ 63 then C ^^^ (B ||| compl32 D)
      else B &&& C ||| compl32 B &&& D
    (D,
     add32 (md5_rotate (add32 (add32 (add32 f A) (chunk.getD g 0))
       (K.getD i 0)) (S.getD i 0)) B,
     B, C)

/-- Spec-side compression: 64 rounds of `md5_round_spec` on the state. -/
def compress_spec (block : List Nat) (st : Nat × Nat × Nat × Nat) :
    Nat × Nat × Nat × Nat :=
  (List.range 64).foldl (md5_round_spec block) st

/-- Modelled from the spec digest driver: pad, initialize the fixed
constants, fold spec compression with modular accumulation over the block
offsets `0, 64, ...` in increasing order, then serialize `A, B, C, D`
little-endian. -/
def digest_spec (message : List Nat) : List Nat :=
  let padded := md5_pad_message message
  let final := (List.range (padded.length / 64)).foldl
    (fun st b =>
      let r := compress_spec (block_at padded (b * 64)) st
      (add32 st.1 r.1, add32 st.2.1 r.2.1, add32 st.2.2.1 r.2.2.1,
        add32 st.2.2.2 r.2.2.2))
    (0x67452301, 0xefcdab89, 0x98badcfe, 0x10325476)
  word_to_bytes final.1 ++ word_to_bytes final.2.1 ++
    word_to_bytes final.2.2.1 ++ word_to_bytes final.2.2.2

/-! Helper lemmas shared by the claim theorems. -/

/-- Closed form of the padded length. -/
theorem pad_length (m : List Nat) :
    (md5_pad_message m).length =
      m.length + 9 + (64 - (m.length + 9) % 64) % 64 := by
  simp [md5_pad_message]
  omega

/-- In-bounds word extraction succeeds and returns the little-endian word. -/
theorem word_at_eq (msg : List Nat) (base : Nat) (h : base + 3 < msg.length) :
    word_at? msg base = some (wordAt msg base) := by
  have h0 : base < msg.length := by omega
  have h1 : base + 1 < msg.length := by omega
  have h2 : base + 2 < msg.length := by omega
  rw [word_at?, List.getElem?_eq_getElem h0, List.getElem?_eq_getElem h1,
    List.getElem?_eq_getElem h2, List.getElem?_eq_getElem h]
  rw [wordAt, List.getD_eq_getElem _ _ h0, List.getD_eq_getElem _ _ h1,
    List.getD_eq_getElem _ _ h2, List.getD_eq_getElem _ _ h]

/-- The word-building loop succeeds on in-bounds indices. -/
theorem words_eq (msg : List Nat) (i : Nat) (js : List Nat)
    (h : ∀ j ∈ js, i + j * 4 + 3 < msg.length) :
    words? msg i js = some (js.map (fun j => wordAt msg (i + j * 4))) := by
  induction js with
  | nil => rfl
  | cons j js ih =>
    rw [words?, word_at_eq msg (i + j * 4) (h j (by simp)),
      ih (fun a ha => h a (by simp [ha])), List.map_cons]

/-- A chunk whose 64 bytes fit inside the message is extracted intact. -/
theorem chunk_eq (msg : List Nat) (i : Nat) (h : i + 64 ≤ msg.length) :
    md5_get_chunk? msg i = some (block_at msg i) := by
  have hi : i < msg.length := by omega
  rw [md5_get_chunk?, if_pos hi,
    words_eq msg i (List.range 16)
      (fun j hj => by have := List.mem_range.mp hj; omega)]
  rw [block_at]
  congr 1

/-- The source round body agrees with the spec round table below index 64. -/
theorem round_eq_spec (chunk : List Nat) (st : Nat × Nat × Nat × Nat)
    (i : Nat) (h : i < 64) :
    md5_round chunk st i = md5_round_spec chunk st i := by
  obtain ⟨A, B, C, D⟩ := st
  simp only [md5_round, md5_round_spec]
  split_ifs <;> first | rfl | (exfalso; omega)

/-- The 64-round loop agrees with spec compression componentwise. -/
theorem process_eq_spec (chunk : List Nat) (A B C D : Nat) :
    md5_process_chunk chunk A B C D =
      [(compress_spec chunk (A, B, C, D)).1,
       (compress_spec chunk (A, B, C, D)).2.1,
       (compress_spec chunk (A, B, C, D)).2.2.1,
       (compress_spec chunk (A, B, C, D)).2.2.2] := by
  rw [md5_process_chunk, compress_spec,
    List.foldl_ext (md5_round chunk) (md5_round_spec chunk) (A, B, C, D)
      (fun st j hj => round_eq_spec chunk st j (List.mem_range.mp hj))]

/-- An `Option`-valued left fold whose step always succeeds computes the
plain left fold of the underlying total step. -/
theorem foldlM_eq_foldl {α β : Type} (g : β → α → Option β) (f : β → α → β)
    (l : List α) (h : ∀ a ∈ l, ∀ b, g b a = some (f b a)) :
    ∀ init : β, l.foldlM g init = some (l.foldl f init) := by
  induction l with
  | nil => intro init; rfl
  | cons a as ih =>
    intro init
    rw [List.foldlM_cons, h a (by simp)]
    show as.foldlM g (f init a) = _
    rw [ih (fun x hx b => h x (by simp [hx]) b), List.foldl_cons]

/-- The driver pipeline always succeeds and computes the spec digest. -/
theorem digest_eq_spec (m : List Nat) :
    md5_digest? m = some (digest_spec m) := by
  have hstep : ∀ b ∈ List.range ((md5_pad_message m).length / 64),
      ∀ st : Nat × Nat × Nat × Nat,
      md5_step? (md5_pad_message m) st b =
        some (let r := compress_spec
                (block_at (md5_pad_message m) (b * 64)) st
              (add32 st.1 r.1, add32 st.2.1 r.2.1, add32 st.2.2.1 r.2.2.1,
                add32 st.2.2.2 r.2.2.2)) := by
    intro b hb st
    have hlen : (md5_pad_message m).length % 64 = 0 := by
      rw [pad_length]; omega
    have hb64 : b * 64 + 64 ≤ (md5_pad_message m).length := by
      have := List.mem_range.mp hb
      omega
    obtain ⟨A, B, C, D⟩ := st
    rw [md5_step?, chunk_eq _ _ hb64, Option.map_some', process_eq_spec]
    rfl
  rw [md5_digest?, md5_blocks?, foldlM_eq_foldl _ _ _ hstep]
  rfl

/-! Claim theorems. -/

set_option maxRecDepth 100000 in
/-- C1: the full digest pipeline produces the standard MD5 known-answer
values: the empty input hashes to `d41d8cd98f00b204e9800998ecf8427e`, the
3-byte input `abc` to `900150983cd24fb0d6963f7d28e17f72`, and the 43-byte
fox pangram to `9e107d9d372bb6826bd81d3542a419d6`. -/
theorem C1_known_answer_digests :
    (strToBytes "abc").length = 3 ∧
    (strToBytes "The quick brown fox jumps over the lazy dog").length = 43 ∧
    (md5_digest? (strToBytes "")).map to_hex_string =
        some "d41d8cd98f00b204e9800998ecf8427e" ∧
    (md5_digest? (strToBytes "abc")).map to_hex_string =
        some "900150983cd24fb0d6963f7d28e17f72" ∧
    (md5_digest? (strToBytes
          "The quick brown fox jumps over the lazy dog")).map to_hex_string =
      some "9e107d9d372bb6826bd81d3542a419d6" := by
  refine ⟨by decide, by decide, by decide, by decide, by decide⟩

/-- C2: on every 16-word chunk and every starting state, the chunk
processor performs exactly 64 rounds, round `i` selecting the input word
and mixing function by the four sixteen-round ranges of the spec table
and setting `(A,B,C,D)` to `(D, rotl(f+A+word+K[i], S[i])+B, B, C)`
modulo `2 ^ 32`; the returned vector is the state after round 63. -/
theorem C2_process_chunk_rounds (chunk : List Nat) (A B C D : Nat) :
    md5_process_chunk chunk A B C D =
      [(compress_spec chunk (A, B, C, D)).1,
       (compress_spec chunk (A, B, C, D)).2.1,
       (compress_spec chunk (A, B, C, D)).2.2.1,
       (compress_spec chunk (A, B, C, D)).2.2.2] :=
  process_eq_spec chunk A B C D

/-- C3: for every byte sequence, padding appends one `0x80` byte, then
the minimal number of zero bytes making the running length plus 8 a
multiple of 64, then the 8-byte little-endian encoding of eight times the
original length reduced modulo `2 ^ 64`; consequently the padded length
is a multiple of 64 and at least the original length plus 9, with no
error condition. -/
theorem C3_pad_structure (m : List Nat) :
    (∃ z, md5_pad_message m =
        m ++ [0x80] ++ List.replicate z 0 ++
          (List.range 8).map
            (fun k => (m.length * 8 % 2 ^ 64) >>> (k * 8) &&& 0xff) ∧
        (m.length + 1 + z + 8) % 64 = 0 ∧
        ∀ y, y < z → (m.length + 1 + y + 8) % 64 ≠ 0) ∧
    (md5_pad_message m).length % 64 = 0 ∧
    m.length + 9 ≤ (md5_pad_message m).length := by
  refine ⟨⟨(64 - (m.length + 9) % 64) % 64, ?_, by omega, fun y hy => by omega⟩,
    by rw [pad_length]; omega, by rw [pad_length]; omega⟩
  rw [md5_pad_message]
  simp [List.append_assoc]

/-- C3 witness: concrete consequences at the 3-byte input `abc`. -/
theorem C3_pad_structure_witness :
    (md5_pad_message [97, 98, 99]).length % 64 = 0 ∧
    3 + 9 ≤ (md5_pad_message [97, 98, 99]).length :=
  ⟨(C3_pad_structure [97, 98, 99]).2.1, (C3_pad_structure [97, 98, 99]).2.2⟩

/-- C4: the digest driver starts from the fixed initial constants, then
for each 64-byte offset below the padded length in increasing order
extracts the block, runs the 64-round function from the current state and
accumulates the four returned words modulo `2 ^ 32`, finally serializing
`A, B, C, D` as four little-endian bytes each. -/
theorem C4_digest_driver (m : List Nat) :
    md5_digest? m = some (digest_spec m) :=
  digest_eq_spec m

/-- C5 counterexample: the claim as stated is false on the code: the
element of `S` at index 32 is 4, below the alleged lower bound 7. -/
theorem C5_round_tables_counterexample :
    S.getD 32 0 = 4 ∧ ¬ (∀ s ∈ S, 7 ≤ s ∧ s ≤ 23) := by decide

/-- C5 (amended): the tables `K` and `S` each have exactly 64 elements,
and every rotation amount in `S` lies between 4 and 23 inclusive. -/
theorem C5_round_tables :
    K.length = 64 ∧ S.length = 64 ∧ ∀ s ∈ S, 4 ≤ s ∧ s ≤ 23 := by
  refine ⟨by decide, by decide, by decide⟩

/-- C5 witness: the amended bounds hold at the concrete element 7 of `S`. -/
theorem C5_round_tables_witness : 4 ≤ 7 ∧ 7 ≤ 23 :=
  C5_round_tables.2.2 7 (by decide)

/-- C6: under the precondition that the offset is a multiple of 64 with
`offset + 64 ≤ len(padded)`, extraction touches only byte indices in
`[offset, offset + 64)`, all in bounds; the runtime assertion
`offset < len(padded)` passes and the `Option`-modelled extraction never
reaches its out-of-bounds branch. -/
theorem C6_block_extraction_inbounds (padded : List Nat) (offset : Nat)
    (_hmul : offset % 64 = 0) (h2 : offset + 64 ≤ padded.length) :
    (∀ j, j < 16 → ∀ k, k < 4 → offset + j * 4 + k < padded.length) ∧
    offset < padded.length ∧
    (md5_get_chunk? padded offset).isSome := by
  refine ⟨fun j hj k hk => by omega, by omega, ?_⟩
  rw [chunk_eq padded offset h2]
  rfl

/-- C6 witness: extraction succeeds on a concrete 64-byte message. -/
theorem C6_block_extraction_inbounds_witness :
    (md5_get_chunk? (List.replicate 64 0) 0).isSome :=
  (C6_block_extraction_inbounds (List.replicate 64 0) 0 (by decide)
    (by simp)).2.2

/-- C7: under the extraction precondition, the extractor returns exactly
16 words, word `j` being the little-endian combination of the bytes at
`offset + 4*j` through `offset + 4*j + 3`. -/
theorem C7_block_words (padded : List Nat) (offset : Nat)
    (_hmul : offset % 64 = 0) (h2 : offset + 64 ≤ padded.length) :
    ∃ c, md5_get_chunk? padded offset = some c ∧ c.length = 16 ∧
      ∀ j, j < 16 → c.getD j 0 =
        padded.getD (offset + 4 * j) 0 |||
          padded.getD (offset + 4 * j + 1) 0 <<< 8 |||
          padded.getD (offset + 4 * j + 2) 0 <<< 16 |||
          padded.getD (offset + 4 * j + 3) 0 <<< 24 := by
  refine ⟨block_at padded offset, chunk_eq padded offset h2,
    by simp [block_at], ?_⟩
  intro j hj
  have hj16 : j < (block_at padded offset).length := by
    simp only [block_at, List.length_map, List.length_range]
    exact hj
  rw [List.getD_eq_getElem _ _ hj16]
  simp only [block_at, List.getElem_map, List.getElem_range]
  rfl

/-- C7 witness: the word characterization at a concrete 64-byte message. -/
theorem C7_block_words_witness :
    ∃ c, md5_get_chunk? (List.replicate 64 1) 0 = some c ∧ c.length = 16 := by
  obtain ⟨c, hc1, hc2, hc3⟩ :=
    C7_block_words (List.replicate 64 1) 0 (by decide) (by simp)
  exact ⟨c, hc1, hc2⟩

/-- C8: the core digest computation is total: every finite byte sequence,
the empty one included, produces a full 16-byte digest with no failing
assertion or out-of-range access anywhere in the pipeline. -/
theorem C8_digest_total (m : List Nat) :
    ∃ d, md5_digest? m = some d ∧ d.length = 16 :=
  ⟨digest_spec m, digest_eq_spec m, by simp [digest_spec, word_to_bytes]⟩

/-- C9: `md5_rotate` is a genuine 32-bit left rotation for `0 ≤ n ≤ 32`:
bit `k` of the result is bit `(k + 32 - n) % 32` of `x`; `n = 0` and
`n = 32` act as the identity; and for `n` in `[1, 31]` the result is
`(x << n) | (x >> (32 - n))` on 32-bit words. -/
theorem C9_rotate_left (x n : Nat) (hx : x < 2 ^ 32) (hn : n ≤ 32) :
    (∀ k, k < 32 → (md5_rotate x n).testBit k =
        x.testBit ((k + (32 - n)) % 32)) ∧
    (n = 0 → md5_rotate x n = x) ∧
    (n = 32 → md5_rotate x n = x) ∧
    (1 ≤ n → n ≤ 31 →
      md5_rotate x n = (x <<< n) % 2 ^ 32 ||| x >>> (32 - n)) := by
  refine ⟨?_, ?_, ?_, fun h1 h2 => rfl⟩
  · intro k hk
    rw [md5_rotate, Nat.testBit_lor, Nat.testBit_mod_two_pow,
      Nat.testBit_shiftLeft, Nat.testBit_shiftRight]
    by_cases hkn : n ≤ k
    · have e1 : (k + (32 - n)) % 32 = k - n := by omega
      have e2 : x.testBit (32 - n + k) = false :=
        Nat.testBit_lt_two_pow
          (lt_of_lt_of_le hx (Nat.pow_le_pow_right (by omega) (by omega)))
      simp [hk, hkn, e1, e2]
    · have e1 : (k + (32 - n)) % 32 = 32 - n + k := by omega
      simp [hk, hkn, e1]
  · intro h0
    subst h0
    rw [md5_rotate, Nat.shiftLeft_zero, Nat.mod_eq_of_lt hx,
      Nat.shiftRight_eq_div_pow, Nat.div_eq_of_lt hx, Nat.or_zero]
  · intro h32
    subst h32
    rw [md5_rotate, Nat.shiftLeft_eq, Nat.sub_self, Nat.shiftRight_zero,
      Nat.mul_mod_left, Nat.zero_or]

/-- C9 witness: rotation by 0 is the identity on the word 1. -/
theorem C9_rotate_left_witness : md5_rotate 1 0 = 1 :=
  (C9_rotate_left 1 0 (by decide) (by decide)).2.1 rfl

/-- C10: the padded length is exactly `64 * ceil((len(m) + 9) / 64)`;
padding appends at least 9 and at most 72 bytes. -/
theorem C10_padded_length (m : List Nat) :
    (md5_pad_message m).length = 64 * ((m.length + 9 + 63) / 64) ∧
    m.length + 9 ≤ (md5_pad_message m).length ∧
    (md5_pad_message m).length ≤ m.length + 72 := by
  rw [pad_length]
  omega

end MD5
